import Mathlib

/-!
Verification of the brassfibre tabular data engine.

The core data model (`DataFrame`, `Series`, `GroupBy`) is embedded from the
Rust sources under `src/`.  The `Indexer` type and the hash-based grouping and
join algorithms live in repository files that are not part of the provided
sources (`index.rs` / `indexer.rs`, `algos/grouper.rs`, `algos/join.rs`); those
are modelled from the specification, as marked on each definition.
Rust panics and `Result`-style failures are both embedded as `Except Err`;
machine `usize` positions become `Nat`.
-/

namespace Brassfibre

/-- Error kinds of the engine (spec §7): shape mismatches, missing labels,
out-of-range positions, reshape precondition violations, missing group keys. -/
inductive Err where
  | LengthMismatch
  | UnknownLabel
  | OutOfBounds
  | ColumnsDiffer
  | IndexDiffer
  | GroupNotFound
  deriving DecidableEq

/-- Modelled from the spec: `Indexer` (source file `index.rs` is not in `src/`)
is an ordered label sequence; the derived label-to-position mapping is a cache
of this sequence, and structural equality compares only the label sequence. -/
structure Indexer (α : Type) where
  values : List α
  deriving DecidableEq

/-- `Indexer::len`: number of labels. -/
def Indexer.len {α : Type} (ix : Indexer α) : Nat := ix.values.length

/-- Positional gather over a list: element at each requested position, in
order, duplicates permitted; an out-of-range position is the `OutOfBounds`
failure.  This embeds both `Indexer.reindex`'s checked selection and the
column array's `ilocs_unchecked` gather (spec §6). -/
def gatherE {α : Type} (l : List α) : List Nat → Except Err (List α)
  | [] => .ok []
  | i :: is =>
    match l[i]? with
    | some x =>
      match gatherE l is with
      | .ok rest => .ok (x :: rest)
      | .error e => .error e
    | none => .error .OutOfBounds

/-- Modelled from the spec: `Indexer.reindex(positions)` produces a new Indexer
whose labels are `labels[positions]` in the given order, failing with
`OutOfBounds` if any position exceeds the current length (spec §4.1). -/
def Indexer.reindex {α : Type} (ix : Indexer α) (locations : List Nat) :
    Except Err (Indexer α) :=
  match gatherE ix.values locations with
  | .ok vs => .ok ⟨vs⟩
  | .error e => .error e

/-- Modelled from the spec: `Indexer.append(other)` concatenates two label
sequences positionally, duplicates allowed, no merge or dedup (spec §4.1). -/
def Indexer.append {α : Type} (ix other : Indexer α) : Indexer α :=
  ⟨ix.values ++ other.values⟩

theorem gatherE_ok_length {α : Type} {l r : List α} {locs : List Nat}
    (h : gatherE l locs = .ok r) : r.length = locs.length := by
  induction locs generalizing r with
  | nil =>
    simp only [gatherE] at h
    cases h
    rfl
  | cons i is ih =>
    simp only [gatherE] at h
    cases hg : l[i]? with
    | none => rw [hg] at h; cases h
    | some x =>
      rw [hg] at h
      cases hr : gatherE l is with
      | error e => rw [hr] at h; cases h
      | ok rest =>
        rw [hr] at h
        cases h
        simp [ih hr]

theorem gatherE_ok_get {α : Type} {l r : List α} {locs : List Nat}
    (h : gatherE l locs = .ok r) :
    ∀ (k i : Nat), locs[k]? = some i → r[k]? = l[i]? := by
  induction locs generalizing r with
  | nil => intro k i hk; simp at hk
  | cons j is ih =>
    simp only [gatherE] at h
    cases hg : l[j]? with
    | none => rw [hg] at h; cases h
    | some x =>
      rw [hg] at h
      cases hr : gatherE l is with
      | error e => rw [hr] at h; cases h
      | ok rest =>
        rw [hr] at h
        cases h
        intro k i hk
        cases k with
        | zero =>
          simp at hk
          subst hk
          simpa using hg.symm
        | succ k =>
          simp at hk ⊢
          exact ih hr k i (by simpa using hk)

theorem gatherE_ok_of_bounds {α : Type} {l : List α} {locs : List Nat}
    (h : ∀ i ∈ locs, i < l.length) : ∃ r, gatherE l locs = .ok r := by
  induction locs with
  | nil => exact ⟨[], rfl⟩
  | cons i is ih =>
    obtain ⟨rest, hrest⟩ := ih (fun j hj => h j (List.mem_cons_of_mem _ hj))
    have hi : i < l.length := h i (List.mem_cons_self _ _)
    refine ⟨l[i] :: rest, ?_⟩
    simp only [gatherE]
    rw [List.getElem?_eq_getElem hi, hrest]

theorem gatherE_error {α : Type} {l : List α} {locs : List Nat} {e : Err}
    (h : gatherE l locs = .error e) : e = .OutOfBounds := by
  induction locs with
  | nil => simp [gatherE] at h
  | cons i is ih =>
    simp only [gatherE] at h
    cases hg : l[i]? with
    | none => rw [hg] at h; cases h; rfl
    | some x =>
      rw [hg] at h
      cases hr : gatherE l is with
      | error e2 => rw [hr] at h; cases h; exact ih hr
      | ok rest => rw [hr] at h; cases h

theorem gatherE_range {α : Type} (l : List α) :
    gatherE l (List.range l.length) = .ok l := by
  obtain ⟨r, hr⟩ := gatherE_ok_of_bounds
    (show ∀ i ∈ List.range l.length, i < l.length from fun i hi =>
      List.mem_range.mp hi)
  have hlen : r.length = l.length := by
    simpa using gatherE_ok_length hr
  have : r = l := by
    apply List.ext_getElem?
    intro k
    by_cases hk : k < l.length
    · have := gatherE_ok_get hr k k (by simp [List.getElem?_range, hk])
      simpa using this
    · rw [List.getElem?_eq_none (by omega), List.getElem?_eq_none (by omega)]
  rw [hr, this]

/-- Per-column gather: applies `gatherE` to every column array independently,
as `reindex_by_index`'s loop over `self.values` does. -/
def gatherCols {α : Type} (locs : List Nat) : List (List α) → Except Err (List (List α))
  | [] => .ok []
  | c :: cs =>
    match gatherE c locs with
    | .ok c2 =>
      match gatherCols locs cs with
      | .ok cs2 => .ok (c2 :: cs2)
      | .error e => .error e
    | .error e => .error e

theorem gatherCols_ok_length {α : Type} {cols r : List (List α)} {locs : List Nat}
    (h : gatherCols locs cols = .ok r) : r.length = cols.length := by
  induction cols generalizing r with
  | nil => simp only [gatherCols] at h; cases h; rfl
  | cons c cs ih =>
    simp only [gatherCols] at h
    cases hg : gatherE c locs with
    | error e => rw [hg] at h; cases h
    | ok c2 =>
      rw [hg] at h
      cases hr : gatherCols locs cs with
      | error e => rw [hr] at h; cases h
      | ok cs2 =>
        rw [hr] at h
        cases h
        simp [ih hr]

theorem gatherCols_ok_get {α : Type} {cols r : List (List α)} {locs : List Nat}
    (h : gatherCols locs cols = .ok r) :
    ∀ {c : Nat} {colT : List α}, cols[c]? = some colT →
      ∃ colR, r[c]? = some colR ∧ gatherE colT locs = .ok colR := by
  induction cols generalizing r with
  | nil => intro c colT hc; simp at hc
  | cons c0 cs ih =>
    simp only [gatherCols] at h
    cases hg : gatherE c0 locs with
    | error e => rw [hg] at h; cases h
    | ok c2 =>
      rw [hg] at h
      cases hr : gatherCols locs cs with
      | error e => rw [hr] at h; cases h
      | ok cs2 =>
        rw [hr] at h
        cases h
        intro c colT hc
        cases c with
        | zero =>
          simp at hc
          subst hc
          exact ⟨c2, by simp, hg⟩
        | succ c =>
          simp at hc ⊢
          exact ih hr (by simpa using hc)

theorem gatherCols_ok_of_bounds {α : Type} {cols : List (List α)} {locs : List Nat}
    (h : ∀ col ∈ cols, ∀ i ∈ locs, i < col.length) :
    ∃ r, gatherCols locs cols = .ok r := by
  induction cols with
  | nil => exact ⟨[], rfl⟩
  | cons c cs ih =>
    obtain ⟨c2, hc2⟩ := gatherE_ok_of_bounds (h c (List.mem_cons_self _ _))
    obtain ⟨cs2, hcs2⟩ := ih (fun col hcol => h col (List.mem_cons_of_mem _ hcol))
    refine ⟨c2 :: cs2, ?_⟩
    simp only [gatherCols]
    rw [hc2, hcs2]

theorem gatherCols_error {α : Type} {cols : List (List α)} {locs : List Nat} {e : Err}
    (h : gatherCols locs cols = .error e) : e = .OutOfBounds := by
  induction cols with
  | nil => simp [gatherCols] at h
  | cons c cs ih =>
    simp only [gatherCols] at h
    cases hg : gatherE c locs with
    | error e2 => rw [hg] at h; cases h; exact gatherE_error hg
    | ok c2 =>
      rw [hg] at h
      cases hr : gatherCols locs cs with
      | error e2 => rw [hr] at h; cases h; exact ih hr
      | ok cs2 => rw [hr] at h; cases h

/-- The `DataFrame` of `frame/mod.rs`: a row `Indexer`, a column `Indexer`, and
one column array per column entry.  The copy-on-write `Cow` wrappers are an
ownership optimization; structural content is embedded directly (a separate
copy-on-write model is used for the `insert` mutation claims). -/
structure DataFrame (I C V : Type) where
  values : List (List V)
  index : Indexer I
  columns : Indexer C
  deriving DecidableEq

/-- The `DataFrame` invariants established by `from_vec` (spec §3): one column
array per column label, and every column array's length equals the row count. -/
def DataFrame.wf {I C V : Type} (f : DataFrame I C V) : Prop :=
  f.values.length = f.columns.values.length ∧
    ∀ col ∈ f.values, col.length = f.index.values.length

instance {I C V : Type} (f : DataFrame I C V) : Decidable f.wf := by
  unfold DataFrame.wf
  infer_instance

/-- `RowIndex::len` for `DataFrame`: the row count, `self.index.len()`. -/
def DataFrame.len {I C V : Type} (f : DataFrame I C V) : Nat := f.index.len

/-- `DataFrame::reindex_by_index` (`frame/mod.rs`): a new row Indexer via
`Indexer.reindex` (which checks bounds), every column array gathered
independently at the same positions, columns shared unchanged. -/
def DataFrame.reindex_by_index {I C V : Type} (f : DataFrame I C V)
    (locations : List Nat) : Except Err (DataFrame I C V) :=
  match f.index.reindex locations with
  | .error e => .error e
  | .ok newIndex =>
    match gatherCols locations f.values with
    | .error e => .error e
    | .ok newValues => .ok ⟨newValues, newIndex, f.columns⟩

/-- `DataFrame::igets` (`frame/mod.rs`): a new column Indexer via
`Indexer.reindex`, and for each requested position the entire corresponding
column array taken unchanged; the row Indexer is shared unchanged. -/
def DataFrame.igets {I C V : Type} (f : DataFrame I C V)
    (locations : List Nat) : Except Err (DataFrame I C V) :=
  match f.columns.reindex locations with
  | .error e => .error e
  | .ok newColumns =>
    match gatherE f.values locations with
    | .error e => .error e
    | .ok newValues => .ok ⟨newValues, f.index, newColumns⟩

theorem reindex_by_index_never_groupNotFound {I C V : Type}
    {f : DataFrame I C V} {locs : List Nat} {e : Err}
    (h : f.reindex_by_index locs = .error e) : e = .OutOfBounds := by
  unfold DataFrame.reindex_by_index at h
  cases hg : f.index.reindex locs with
  | error e2 =>
    rw [hg] at h
    cases h
    unfold Indexer.reindex at hg
    cases hg2 : gatherE f.index.values locs with
    | error e3 => rw [hg2] at hg; cases hg; exact gatherE_error hg2
    | ok vs => rw [hg2] at hg; cases hg
  | ok newIndex =>
    rw [hg] at h
    cases hc : gatherCols locs f.values with
    | error e2 => rw [hc] at h; cases h; exact gatherCols_error hc
    | ok nv => rw [hc] at h; cases h

/-- C1: for every table `T` and every in-range position list `P`,
`T.reindex_by_index(P)` succeeds and returns a table of length `len(P)` whose
column Indexer and column count equal `T`'s, and in which, for every column,
row `i` of the result equals row `P[i]` of the source. -/
theorem C1_reindex_by_index_spec {I C V : Type} (f : DataFrame I C V)
    (P : List Nat) (hwf : f.wf) (hP : ∀ p ∈ P, p < f.index.values.length) :
    ∃ R, f.reindex_by_index P = .ok R ∧
      R.index.values.length = P.length ∧
      R.columns = f.columns ∧
      R.values.length = f.values.length ∧
      ∀ (c : Nat) (colT colR : List V),
        f.values[c]? = some colT → R.values[c]? = some colR →
        ∀ (k p : Nat), P[k]? = some p → colR[k]? = colT[p]? := by
  obtain ⟨ivs, hivs⟩ := gatherE_ok_of_bounds (l := f.index.values) hP
  obtain ⟨nvs, hnvs⟩ := gatherCols_ok_of_bounds
    (show ∀ col ∈ f.values, ∀ i ∈ P, i < col.length from fun col hcol i hi =>
      (hwf.2 col hcol) ▸ hP i hi)
  refine ⟨⟨nvs, ⟨ivs⟩, f.columns⟩, ?_, ?_, rfl, ?_, ?_⟩
  · unfold DataFrame.reindex_by_index Indexer.reindex
    rw [hivs, hnvs]
  · simpa using gatherE_ok_length hivs
  · simpa using gatherCols_ok_length hnvs
  · intro c colT colR hT hR k p hk
    obtain ⟨colR2, hcolR2, hgath⟩ := gatherCols_ok_get hnvs hT
    have : colR = colR2 := by
      simp only at hR
      rw [hR] at hcolR2
      exact Option.some_inj.mp hcolR2
    subst this
    exact gatherE_ok_get hgath k p hk

/-- C1 witness: a concrete 2-column, 3-row table gathered at positions
`[2, 0, 2]`. -/
theorem C1_witness :
    ∃ R, (DataFrame.mk [[10, 20, 30], [40, 50, 60]] ⟨[1, 2, 3]⟩ ⟨[7, 8]⟩ :
        DataFrame Nat Nat Nat).reindex_by_index [2, 0, 2] = .ok R ∧
      R.index.values.length = [2, 0, 2].length ∧
      R.columns = (⟨[7, 8]⟩ : Indexer Nat) ∧
      R.values.length = [[10, 20, 30], [40, 50, 60]].length ∧
      ∀ (c : Nat) (colT colR : List Nat),
        ([[10, 20, 30], [40, 50, 60]] : List (List Nat))[c]? = some colT →
        R.values[c]? = some colR →
        ∀ (k p : Nat), ([2, 0, 2] : List Nat)[k]? = some p → colR[k]? = colT[p]? :=
  C1_reindex_by_index_spec _ _ (by decide) (by decide)

/-- C2: selecting all column positions, in their original order, with `igets`
returns a table structurally equal to the original. -/
theorem C2_igets_identity {I C V : Type} (f : DataFrame I C V) (hwf : f.wf) :
    f.igets (List.range f.columns.values.length) = .ok f := by
  unfold DataFrame.igets Indexer.reindex
  rw [gatherE_range f.columns.values]
  rw [← hwf.1, gatherE_range f.values]

/-- C2 witness: a concrete 2-column table is unchanged by selecting both of
its column positions in order. -/
theorem C2_witness :
    (DataFrame.mk [[10, 20, 30], [40, 50, 60]] ⟨[1, 2, 3]⟩ ⟨[7, 8]⟩ :
        DataFrame Nat Nat Nat).igets
      (List.range (Indexer.mk [7, 8] : Indexer Nat).values.length) =
      .ok (DataFrame.mk [[10, 20, 30], [40, 50, 60]] ⟨[1, 2, 3]⟩ ⟨[7, 8]⟩) :=
  C2_igets_identity _ (by decide)

/-- `DataFrame::from_vec`: constructs a frame after asserting one value array
per column and every value array's length equal to the row count; the failing
assertion is the `LengthMismatch` panic. -/
def DataFrame.from_vec {I C V : Type} (vals : List (List V)) (index : Indexer I)
    (columns : Indexer C) : Except Err (DataFrame I C V) :=
  if vals.length = columns.values.length ∧
      ∀ v ∈ vals, v.length = index.values.length then
    .ok ⟨vals, index, columns⟩
  else .error .LengthMismatch

/-- `Appender::append` for `DataFrame` (`frame/reshape.rs`): requires equal
column Indexers (else the `ColumnsDiffer` failure), concatenates the row label
sequences, and appends each of `other`'s column arrays to `self`'s
corresponding array, pairing columns positionally via `zip`. -/
def DataFrame.append {I C V : Type} [DecidableEq C] (f g : DataFrame I C V) :
    Except Err (DataFrame I C V) :=
  if f.columns = g.columns then
    DataFrame.from_vec (List.zipWith (· ++ ·) f.values g.values)
      (f.index.append g.index) f.columns
  else .error .ColumnsDiffer

/-- `Concatenator::concat` for `DataFrame` (`frame/reshape.rs`): requires equal
row Indexers (else the `IndexDiffer` failure), concatenates the column label
sequences, and lists `self`'s column arrays followed by clones of `other`'s,
with no row-level work. -/
def DataFrame.concat {I C V : Type} [DecidableEq I] (f g : DataFrame I C V) :
    Except Err (DataFrame I C V) :=
  if f.index = g.index then
    DataFrame.from_vec (f.values ++ g.values) f.index (f.columns.append g.columns)
  else .error .IndexDiffer

theorem zipWith_append_mem {V : Type} {a b : List (List V)} {v : List V}
    (h : v ∈ List.zipWith (fun x y => x ++ y) a b) :
    ∃ x ∈ a, ∃ y ∈ b, v = x ++ y := by
  induction a generalizing b with
  | nil => simp at h
  | cons x xs ih =>
    cases b with
    | nil => simp at h
    | cons y ys =>
      simp only [List.zipWith_cons_cons, List.mem_cons] at h
      cases h with
      | inl h => exact ⟨x, by simp, y, by simp, h⟩
      | inr h =>
        obtain ⟨x2, hx2, y2, hy2, hv⟩ := ih h
        exact ⟨x2, List.mem_cons_of_mem _ hx2, y2, List.mem_cons_of_mem _ hy2, hv⟩

theorem zipWith_get_some {α β γ : Type} {f : α → β → γ} {a : List α} {b : List β}
    {c : Nat} {x : α} {y : β} (ha : a[c]? = some x) (hb : b[c]? = some y) :
    (List.zipWith f a b)[c]? = some (f x y) := by
  induction a generalizing b c with
  | nil => simp at ha
  | cons a0 as ih =>
    cases b with
    | nil => simp at hb
    | cons b0 bs =>
      cases c with
      | zero =>
        simp at ha hb
        subst ha
        subst hb
        simp
      | succ c =>
        simp at ha hb ⊢
        exact ih (by simpa using ha) (by simpa using hb)

/-- C4: for tables with structurally equal column Indexers, `append` returns a
table whose row Indexer is the positional concatenation of the two label
sequences and whose every column array is `self`'s array for that column
followed by `other`'s; when the column Indexers differ, `append` fails with
`ColumnsDiffer`. -/
theorem C4_append_spec {I C V : Type} [DecidableEq C] (f g : DataFrame I C V)
    (hwf : f.wf) (hwg : g.wf) :
    (f.columns = g.columns →
      ∃ R, f.append g = .ok R ∧
        R.index.values = f.index.values ++ g.index.values ∧
        R.columns = f.columns ∧
        R.values.length = f.values.length ∧
        ∀ (c : Nat) (cf cg : List V),
          f.values[c]? = some cf → g.values[c]? = some cg →
          R.values[c]? = some (cf ++ cg)) ∧
    (f.columns ≠ g.columns → f.append g = .error .ColumnsDiffer) := by
  constructor
  · intro hcols
    have hlen : f.values.length = g.values.length := by
      rw [hwf.1, hwg.1, hcols]
    have hzlen : (List.zipWith (fun x y => x ++ y) f.values g.values).length =
        f.values.length := by
      simp [List.length_zipWith, hlen]
    refine ⟨⟨List.zipWith (· ++ ·) f.values g.values,
      f.index.append g.index, f.columns⟩, ?_, rfl, rfl, hzlen, ?_⟩
    · unfold DataFrame.append DataFrame.from_vec
      rw [if_pos hcols, if_pos]
      refine ⟨by rw [hzlen, hwf.1], ?_⟩
      intro v hv
      obtain ⟨x, hx, y, hy, hxy⟩ := zipWith_append_mem hv
      subst hxy
      have hxl := hwf.2 x hx
      have hyl := hwg.2 y hy
      simp [Indexer.append, hxl, hyl]
    · intro c cf cg hcf hcg
      exact zipWith_get_some hcf hcg
  · intro hcols
    unfold DataFrame.append
    rw [if_neg hcols]

/-- C4 witness: appending two concrete 2-column tables with equal column
Indexers. -/
theorem C4_witness :
    ((DataFrame.mk [[1, 2], [3, 4]] ⟨[0, 1]⟩ ⟨[7, 8]⟩ :
        DataFrame Nat Nat Nat).columns =
      (DataFrame.mk [[5], [6]] ⟨[9]⟩ ⟨[7, 8]⟩ : DataFrame Nat Nat Nat).columns →
      ∃ R, (DataFrame.mk [[1, 2], [3, 4]] ⟨[0, 1]⟩ ⟨[7, 8]⟩ :
          DataFrame Nat Nat Nat).append (DataFrame.mk [[5], [6]] ⟨[9]⟩ ⟨[7, 8]⟩) =
            .ok R ∧
        R.index.values = [0, 1] ++ [9] ∧
        R.columns = (⟨[7, 8]⟩ : Indexer Nat) ∧
        R.values.length = [[1, 2], [3, 4]].length ∧
        ∀ (c : Nat) (cf cg : List Nat),
          ([[1, 2], [3, 4]] : List (List Nat))[c]? = some cf →
          ([[5], [6]] : List (List Nat))[c]? = some cg →
          R.values[c]? = some (cf ++ cg)) ∧
    ((DataFrame.mk [[1, 2], [3, 4]] ⟨[0, 1]⟩ ⟨[7, 8]⟩ :
        DataFrame Nat Nat Nat).columns ≠
      (DataFrame.mk [[5], [6]] ⟨[9]⟩ ⟨[7, 8]⟩ : DataFrame Nat Nat Nat).columns →
      (DataFrame.mk [[1, 2], [3, 4]] ⟨[0, 1]⟩ ⟨[7, 8]⟩ :
        DataFrame Nat Nat Nat).append (DataFrame.mk [[5], [6]] ⟨[9]⟩ ⟨[7, 8]⟩) =
        .error .ColumnsDiffer) :=
  C4_append_spec _ _ (by decide) (by decide)

/-- C5: for tables with structurally equal row Indexers, `concat` returns a
table whose column Indexer is the concatenation of the two column label
sequences, whose column-array list is `self`'s arrays followed by `other`'s
with no row-level gather, and whose row Indexer is unchanged; when the row
Indexers differ, `concat` fails with `IndexDiffer`. -/
theorem C5_concat_spec {I C V : Type} [DecidableEq I] (f g : DataFrame I C V)
    (hwf : f.wf) (hwg : g.wf) :
    (f.index = g.index →
      ∃ R, f.concat g = .ok R ∧
        R.columns.values = f.columns.values ++ g.columns.values ∧
        R.values = f.values ++ g.values ∧
        R.index = f.index) ∧
    (f.index ≠ g.index → f.concat g = .error .IndexDiffer) := by
  constructor
  · intro hidx
    refine ⟨⟨f.values ++ g.values, f.index, f.columns.append g.columns⟩,
      ?_, rfl, rfl, rfl⟩
    unfold DataFrame.concat DataFrame.from_vec
    rw [if_pos hidx, if_pos]
    constructor
    · simp [Indexer.append, hwf.1, hwg.1]
    · intro v hv
      rcases List.mem_append.mp hv with hv | hv
      · exact hwf.2 v hv
      · rw [hwg.2 v hv, hidx]
  · intro hidx
    unfold DataFrame.concat
    rw [if_neg hidx]

/-- C5 witness: column-concatenating two concrete tables with equal row
Indexers. -/
theorem C5_witness :
    ((DataFrame.mk [[1, 2]] ⟨[0, 1]⟩ ⟨[7]⟩ : DataFrame Nat Nat Nat).index =
      (DataFrame.mk [[3, 4], [5, 6]] ⟨[0, 1]⟩ ⟨[8, 9]⟩ :
        DataFrame Nat Nat Nat).index →
      ∃ R, (DataFrame.mk [[1, 2]] ⟨[0, 1]⟩ ⟨[7]⟩ :
          DataFrame Nat Nat Nat).concat
            (DataFrame.mk [[3, 4], [5, 6]] ⟨[0, 1]⟩ ⟨[8, 9]⟩) = .ok R ∧
        R.columns.values = [7] ++ [8, 9] ∧
        R.values = [[1, 2]] ++ [[3, 4], [5, 6]] ∧
        R.index = (⟨[0, 1]⟩ : Indexer Nat)) ∧
    ((DataFrame.mk [[1, 2]] ⟨[0, 1]⟩ ⟨[7]⟩ : DataFrame Nat Nat Nat).index ≠
      (DataFrame.mk [[3, 4], [5, 6]] ⟨[0, 1]⟩ ⟨[8, 9]⟩ :
        DataFrame Nat Nat Nat).index →
      (DataFrame.mk [[1, 2]] ⟨[0, 1]⟩ ⟨[7]⟩ : DataFrame Nat Nat Nat).concat
        (DataFrame.mk [[3, 4], [5, 6]] ⟨[0, 1]⟩ ⟨[8, 9]⟩) =
        .error .IndexDiffer) :=
  C5_concat_spec _ _ (by decide) (by decide)

theorem gatherCols_ok_mem_length {α : Type} {cols r : List (List α)} {locs : List Nat}
    (h : gatherCols locs cols = .ok r) : ∀ v ∈ r, v.length = locs.length := by
  induction cols generalizing r with
  | nil => simp only [gatherCols] at h; cases h; simp
  | cons c cs ih =>
    simp only [gatherCols] at h
    cases hg : gatherE c locs with
    | error e => rw [hg] at h; cases h
    | ok c2 =>
      rw [hg] at h
      cases hr : gatherCols locs cs with
      | error e => rw [hr] at h; cases h
      | ok cs2 =>
        rw [hr] at h
        cases h
        intro v hv
        rcases List.mem_cons.mp hv with hv | hv
        · rw [hv]; exact gatherE_ok_length hg
        · exact ih hr v hv

theorem reindex_by_index_ok_of_bounds {I C V : Type} {f : DataFrame I C V}
    (hwf : f.wf) {locs : List Nat} (h : ∀ p ∈ locs, p < f.index.values.length) :
    ∃ R, f.reindex_by_index locs = .ok R ∧
      R.values.length = f.values.length ∧
      (∀ col ∈ R.values, col.length = locs.length) ∧
      R.index.values.length = locs.length ∧
      R.columns = f.columns := by
  obtain ⟨ivs, hivs⟩ := gatherE_ok_of_bounds (l := f.index.values) h
  obtain ⟨nvs, hnvs⟩ := gatherCols_ok_of_bounds
    (show ∀ col ∈ f.values, ∀ i ∈ locs, i < col.length from fun col hcol i hi =>
      (hwf.2 col hcol) ▸ h i hi)
  refine ⟨⟨nvs, ⟨ivs⟩, f.columns⟩, ?_, ?_, ?_, ?_, rfl⟩
  · unfold DataFrame.reindex_by_index Indexer.reindex
    rw [hivs, hnvs]
  · simpa using gatherCols_ok_length hnvs
  · simpa using gatherCols_ok_mem_length hnvs
  · simpa using gatherE_ok_length hivs

/-- Modelled from the spec: the ordered position list of one value in a
sequence, starting at offset `i`: `positionsOf keys i g` lists in ascending
order every position (offset by `i`) holding `g`.  This is the per-key bucket
that `HashGrouper` builds (`algos/grouper.rs` is not in `src/`: for each row in
order, the row's position is appended to the bucket for `keys[row]`), and also
the right-side match enumeration of `HashJoin::inner`. -/
def positionsOf {G : Type} [DecidableEq G] : List G → Nat → G → List Nat
  | [], _, _ => []
  | k :: ks, i, g =>
    if k = g then i :: positionsOf ks (i + 1) g else positionsOf ks (i + 1) g

theorem positionsOf_lt {G : Type} [DecidableEq G] (l : List G) (n : Nat) (g : G) :
    ∀ p ∈ positionsOf l n g, p < n + l.length := by
  induction l generalizing n with
  | nil => simp [positionsOf]
  | cons k ks ih =>
    intro p hp
    simp only [positionsOf] at hp
    by_cases hk : k = g
    · rw [if_pos hk] at hp
      rcases List.mem_cons.mp hp with hp | hp
      · simp [hp]
      · have := ih (n + 1) p hp
        simp at this ⊢
        omega
    · rw [if_neg hk] at hp
      have := ih (n + 1) p hp
      simp at this ⊢
      omega

theorem positionsOf_length {G : Type} [DecidableEq G] (l : List G) (n : Nat) (g : G) :
    (positionsOf l n g).length = l.count g := by
  induction l generalizing n with
  | nil => simp [positionsOf]
  | cons k ks ih =>
    simp only [positionsOf]
    by_cases hk : k = g
    · rw [if_pos hk]
      simp [List.count_cons, hk, ih]
    · rw [if_neg hk]
      simp [List.count_cons, hk, ih]

/-- Modelled from the spec: `HashJoin::inner` (`algos/join.rs` is not in
`src/`).  Left labels are iterated in original order (position counter `pl`);
for each, its right-side matches are enumerated in their original order; one
`(label, left position, right position)` triple is emitted per pair, the full
cross product on duplicates. -/
def innerJoinAux {L : Type} [DecidableEq L] (right : List L) :
    List L → Nat → List (L × Nat × Nat)
  | [], _ => []
  | a :: ls, pl =>
    ((positionsOf right 0 a).map fun pr => (a, pl, pr)) ++
      innerJoinAux right ls (pl + 1)

/-- Modelled from the spec: the `(merged_labels, left_positions,
right_positions)` triples of `HashJoin::inner`, as one list of triples. -/
def innerJoin {L : Type} [DecidableEq L] (left right : List L) :
    List (L × Nat × Nat) :=
  innerJoinAux right left 0

theorem innerJoinAux_bounds {L : Type} [DecidableEq L] (right ls : List L) (pl : Nat) :
    ∀ t ∈ innerJoinAux right ls pl, t.2.1 < pl + ls.length ∧ t.2.2 < right.length := by
  induction ls generalizing pl with
  | nil => simp [innerJoinAux]
  | cons a ls ih =>
    intro t ht
    simp only [innerJoinAux] at ht
    rcases List.mem_append.mp ht with ht | ht
    · obtain ⟨pr, hpr, hteq⟩ := List.mem_map.mp ht
      subst hteq
      refine ⟨by simp, ?_⟩
      simpa using positionsOf_lt right 0 a pr hpr
    · have := ih (pl + 1) t ht
      simp at this ⊢
      omega

/-- The merged row labels of `join_inner`: one label per emitted match pair. -/
def mergedLabels {I C V : Type} [DecidableEq I] (f g : DataFrame I C V) : List I :=
  (innerJoin f.index.values g.index.values).map (·.1)

/-- The left gather positions of `join_inner`. -/
def leftPositions {I C V : Type} [DecidableEq I] (f g : DataFrame I C V) : List Nat :=
  (innerJoin f.index.values g.index.values).map (·.2.1)

/-- The right gather positions of `join_inner`. -/
def rightPositions {I C V : Type} [DecidableEq I] (f g : DataFrame I C V) : List Nat :=
  (innerJoin f.index.values g.index.values).map (·.2.2)

/-- `Joiner::join_inner` for `DataFrame` (`frame/reshape.rs`): computes the
pairing over the two row Indexers via `HashJoin::inner`, gathers left rows at
the left match positions and right rows at the right match positions,
concatenates the column label sequences without deduplication, and builds the
result from the merged labels and the left-then-right column arrays. -/
def DataFrame.join_inner {I C V : Type} [DecidableEq I] (f g : DataFrame I C V) :
    Except Err (DataFrame I C V) :=
  match f.reindex_by_index (leftPositions f g) with
  | .error e => .error e
  | .ok lf =>
    match g.reindex_by_index (rightPositions f g) with
    | .error e => .error e
    | .ok rf =>
      DataFrame.from_vec (lf.values ++ rf.values) ⟨mergedLabels f g⟩
        (f.columns.append g.columns)

/-- C6: `join_inner` builds its result's column Indexer as the concatenation of
the left table's column labels followed by the right table's, without
deduplication, and its column arrays as the left table's columns gathered at
the left match positions followed by the right table's columns gathered at the
right match positions, with the merged labels as the row Indexer. -/
theorem C6_join_inner_spec {I C V : Type} [DecidableEq I] (f g : DataFrame I C V)
    (hwf : f.wf) (hwg : g.wf) :
    ∃ lf rf,
      f.reindex_by_index (leftPositions f g) = .ok lf ∧
      g.reindex_by_index (rightPositions f g) = .ok rf ∧
      f.join_inner g =
        .ok ⟨lf.values ++ rf.values, ⟨mergedLabels f g⟩,
          ⟨f.columns.values ++ g.columns.values⟩⟩ := by
  have hlb : ∀ p ∈ leftPositions f g, p < f.index.values.length := by
    intro p hp
    obtain ⟨t, ht, hteq⟩ := List.mem_map.mp hp
    subst hteq
    simpa [innerJoin] using
      (innerJoinAux_bounds g.index.values f.index.values 0 t ht).1
  have hrb : ∀ p ∈ rightPositions f g, p < g.index.values.length := by
    intro p hp
    obtain ⟨t, ht, hteq⟩ := List.mem_map.mp hp
    subst hteq
    exact (innerJoinAux_bounds g.index.values f.index.values 0 t ht).2
  obtain ⟨lf, hlf, hlfn, hlfcols, hlfi, hlfc⟩ := reindex_by_index_ok_of_bounds hwf hlb
  obtain ⟨rf, hrf, hrfn, hrfcols, hrfi, hrfc⟩ := reindex_by_index_ok_of_bounds hwg hrb
  refine ⟨lf, rf, hlf, hrf, ?_⟩
  unfold DataFrame.join_inner
  rw [hlf, hrf]
  dsimp only
  unfold DataFrame.from_vec
  rw [if_pos]
  · rfl
  constructor
  · simp [Indexer.append, hlfn, hrfn, hwf.1, hwg.1]
  · intro v hv
    have hpairs : (mergedLabels f g).length =
        (innerJoin f.index.values g.index.values).length := by
      simp [mergedLabels]
    rcases List.mem_append.mp hv with hv | hv
    · rw [hlfcols v hv]
      simp [leftPositions, mergedLabels]
    · rw [hrfcols v hv]
      simp [rightPositions, mergedLabels]

/-- C6 witness: joining two concrete one-column tables whose row labels share
the value 1 (with a duplicate on the left). -/
theorem C6_witness :
    ∃ lf rf,
      (DataFrame.mk [[10, 20, 30]] ⟨[1, 2, 1]⟩ ⟨[5]⟩ :
          DataFrame Nat Nat Nat).reindex_by_index
        (leftPositions (DataFrame.mk [[10, 20, 30]] ⟨[1, 2, 1]⟩ ⟨[5]⟩)
          (DataFrame.mk [[40, 50]] ⟨[1, 3]⟩ ⟨[6]⟩ : DataFrame Nat Nat Nat)) =
        .ok lf ∧
      (DataFrame.mk [[40, 50]] ⟨[1, 3]⟩ ⟨[6]⟩ :
          DataFrame Nat Nat Nat).reindex_by_index
        (rightPositions (DataFrame.mk [[10, 20, 30]] ⟨[1, 2, 1]⟩ ⟨[5]⟩)
          (DataFrame.mk [[40, 50]] ⟨[1, 3]⟩ ⟨[6]⟩ : DataFrame Nat Nat Nat)) =
        .ok rf ∧
      (DataFrame.mk [[10, 20, 30]] ⟨[1, 2, 1]⟩ ⟨[5]⟩ :
          DataFrame Nat Nat Nat).join_inner
        (DataFrame.mk [[40, 50]] ⟨[1, 3]⟩ ⟨[6]⟩) =
        .ok ⟨lf.values ++ rf.values,
          ⟨mergedLabels (DataFrame.mk [[10, 20, 30]] ⟨[1, 2, 1]⟩ ⟨[5]⟩)
            (DataFrame.mk [[40, 50]] ⟨[1, 3]⟩ ⟨[6]⟩ : DataFrame Nat Nat Nat)⟩,
          ⟨[5] ++ [6]⟩⟩ :=
  C6_join_inner_spec _ _ (by decide) (by decide)

/-- `GroupBy` (`groupby.rs`): a borrowed source plus the grouper built from the
key sequence.  The hash-based `HashGrouper` (`algos/grouper.rs`, not in `src/`)
is determined by the key sequence alone, so the grouper is kept as the key
sequence and its buckets are recovered by `positionsOf`. -/
structure GroupBy (I C V G : Type) where
  data : DataFrame I C V
  keys : List G
  deriving DecidableEq

/-- `GroupBy::new` (`groupby.rs`): fails with `LengthMismatch` when the key
sequence's length differs from the source's row count, otherwise builds the
grouper. -/
def GroupBy.new {I C V G : Type} (data : DataFrame I C V) (keys : List G) :
    Except Err (GroupBy I C V G) :=
  if data.index.values.length = keys.length then .ok ⟨data, keys⟩
  else .error .LengthMismatch

/-- `GroupBy::get_group` (`groupby.rs`): when the key has a bucket, gathers the
source's rows at that key's position list via `ilocs`; otherwise the
`GroupNotFound` failure. -/
def GroupBy.get_group {I C V G : Type} [DecidableEq G] (gb : GroupBy I C V G)
    (g : G) : Except Err (DataFrame I C V) :=
  if g ∈ gb.keys then gb.data.reindex_by_index (positionsOf gb.keys 0 g)
  else .error .GroupNotFound

/-- `GroupBy::groups` (`groupby.rs`): the grouper's key set, sorted ascending.
The hash map's key iteration order is unspecified; sorting the distinct keys
makes the result the unique ascending enumeration, so any correct sort of the
deduplicated key sequence embeds it. -/
def GroupBy.groups {I C V G : Type} [LinearOrder G] (gb : GroupBy I C V G) :
    List G :=
  List.insertionSort (· ≤ ·) gb.keys.dedup

/-- C3: for every GroupBy built from a source and an aligned key sequence,
`groups()` returns each distinct key exactly once, sorted ascending by the
key's natural order, and the per-key bucket sizes sum to the source's length. -/
theorem C3_groups_spec {I C V G : Type} [LinearOrder G] (data : DataFrame I C V)
    (keys : List G) (gb : GroupBy I C V G) (h : GroupBy.new data keys = .ok gb) :
    gb.groups.Nodup ∧ gb.groups.Sorted (· ≤ ·) ∧
      (∀ g : G, g ∈ gb.groups ↔ g ∈ keys) ∧
      ((gb.groups.map fun g => (positionsOf keys 0 g).length).sum =
        data.index.values.length) := by
  unfold GroupBy.new at h
  by_cases hc : data.index.values.length = keys.length
  · rw [if_pos hc] at h
    cases h
    refine ⟨?_, ?_, ?_, ?_⟩
    · exact (List.perm_insertionSort _ _).nodup_iff.mpr (List.nodup_dedup _)
    · exact List.sorted_insertionSort _ _
    · intro g
      unfold GroupBy.groups
      rw [List.mem_insertionSort, List.mem_dedup]
    · unfold GroupBy.groups
      have hperm : List.Perm (List.insertionSort (· ≤ ·) keys.dedup)
          keys.dedup := List.perm_insertionSort _ _
    /- bucket size = key multiplicity, then sum of multiplicities over the
       distinct keys is the sequence length -/
      calc ((List.insertionSort (· ≤ ·) keys.dedup).map
              fun g => (positionsOf keys 0 g).length).sum
          = ((List.insertionSort (· ≤ ·) keys.dedup).map
              fun g => keys.count g).sum := by
            simp [positionsOf_length]
        _ = (keys.dedup.map fun g => keys.count g).sum := (hperm.map _).sum_eq
        _ = keys.length := List.sum_map_count_dedup_eq_length keys
        _ = data.index.values.length := hc.symm
  · rw [if_neg hc] at h
    cases h

/-- C3 witness: keys `[2, 1, 2, 1, 1]` over a 5-row source. -/
theorem C3_witness :
    (GroupBy.mk (DataFrame.mk [[10, 20, 30, 40, 50]] ⟨[0, 1, 2, 3, 4]⟩ ⟨[9]⟩)
        [2, 1, 2, 1, 1] : GroupBy Nat Nat Nat Nat).groups.Nodup ∧
      (GroupBy.mk (DataFrame.mk [[10, 20, 30, 40, 50]] ⟨[0, 1, 2, 3, 4]⟩ ⟨[9]⟩)
        [2, 1, 2, 1, 1] : GroupBy Nat Nat Nat Nat).groups.Sorted (· ≤ ·) ∧
      (∀ g : Nat,
        g ∈ (GroupBy.mk
            (DataFrame.mk [[10, 20, 30, 40, 50]] ⟨[0, 1, 2, 3, 4]⟩ ⟨[9]⟩)
            [2, 1, 2, 1, 1] : GroupBy Nat Nat Nat Nat).groups ↔
          g ∈ [2, 1, 2, 1, 1]) ∧
      (((GroupBy.mk (DataFrame.mk [[10, 20, 30, 40, 50]] ⟨[0, 1, 2, 3, 4]⟩ ⟨[9]⟩)
            [2, 1, 2, 1, 1] : GroupBy Nat Nat Nat Nat).groups.map
          fun g => (positionsOf [2, 1, 2, 1, 1] 0 g).length).sum =
        (Indexer.mk [0, 1, 2, 3, 4] : Indexer Nat).values.length) :=
  C3_groups_spec (DataFrame.mk [[10, 20, 30, 40, 50]] ⟨[0, 1, 2, 3, 4]⟩ ⟨[9]⟩)
    [2, 1, 2, 1, 1] _ rfl

/-- C7: `GroupBy::new` fails with `LengthMismatch` exactly when the key count
differs from the source's row count; on a successfully built GroupBy,
`get_group` fails with `GroupNotFound` exactly when the key is absent, and
otherwise returns the source's rows gathered at that key's position list. -/
theorem C7_groupby_errors {I C V G : Type} [DecidableEq G]
    (data : DataFrame I C V) (keys : List G) (hwf : data.wf) :
    (GroupBy.new (I := I) (C := C) (V := V) data keys = .error .LengthMismatch ↔
      keys.length ≠ data.index.values.length) ∧
    ∀ gb : GroupBy I C V G, GroupBy.new data keys = .ok gb →
      ∀ g : G,
        (gb.get_group g = .error .GroupNotFound ↔ g ∉ keys) ∧
        (g ∈ keys → ∃ R, gb.get_group g = .ok R ∧
          data.reindex_by_index (positionsOf keys 0 g) = .ok R) := by
  constructor
  · unfold GroupBy.new
    by_cases hc : data.index.values.length = keys.length
    · rw [if_pos hc]
      constructor
      · intro h; cases h
      · intro h; exact absurd hc.symm h
    · rw [if_neg hc]
      constructor
      · intro _; exact fun h => hc h.symm
      · intro _; rfl
  · intro gb hgb g
    unfold GroupBy.new at hgb
    by_cases hc : data.index.values.length = keys.length
    · rw [if_pos hc] at hgb
      cases hgb
      have hmem : g ∈ keys → ∃ R,
          GroupBy.get_group ⟨data, keys⟩ g = .ok R ∧
          data.reindex_by_index (positionsOf keys 0 g) = .ok R := by
        intro hg
        have hb : ∀ p ∈ positionsOf keys 0 g, p < data.index.values.length := by
          intro p hp
          have := positionsOf_lt keys 0 g p hp
          omega
        obtain ⟨R, hR, _, _, _, _⟩ := reindex_by_index_ok_of_bounds hwf hb
        refine ⟨R, ?_, hR⟩
        unfold GroupBy.get_group
        rw [if_pos hg]
        exact hR
      refine ⟨⟨?_, ?_⟩, hmem⟩
      · intro herr hg
        obtain ⟨R, hR, _⟩ := hmem hg
        rw [hR] at herr
        cases herr
      · intro hg
        unfold GroupBy.get_group
        rw [if_neg hg]
    · rw [if_neg hc] at hgb
      cases hgb

/-- C7 witness: a 3-row source with keys `[1, 2, 1]`. -/
theorem C7_witness :
    (GroupBy.new (I := Nat) (C := Nat) (V := Nat)
        (DataFrame.mk [[10, 20, 30]] ⟨[0, 1, 2]⟩ ⟨[9]⟩) [1, 2, 1] =
        .error .LengthMismatch ↔
      ([1, 2, 1] : List Nat).length ≠
        (Indexer.mk [0, 1, 2] : Indexer Nat).values.length) ∧
    ∀ gb : GroupBy Nat Nat Nat Nat,
      GroupBy.new (DataFrame.mk [[10, 20, 30]] ⟨[0, 1, 2]⟩ ⟨[9]⟩) [1, 2, 1] =
        .ok gb →
      ∀ g : Nat,
        (gb.get_group g = .error .GroupNotFound ↔ g ∉ [1, 2, 1]) ∧
        (g ∈ [1, 2, 1] → ∃ R, gb.get_group g = .ok R ∧
          (DataFrame.mk [[10, 20, 30]] ⟨[0, 1, 2]⟩ ⟨[9]⟩ :
            DataFrame Nat Nat Nat).reindex_by_index
              (positionsOf [1, 2, 1] 0 g) = .ok R) :=
  C7_groupby_errors _ _ (by decide)

/-- A copy-on-write handle (`std::borrow::Cow`): either exclusively owned data
or a reference into shared read-only storage. -/
inductive Cow (α : Type) where
  | owned (val : α)
  | borrowed (ref : Nat)
  deriving DecidableEq

/-- Reads through a `Cow` handle: owned data directly, a borrowed reference
through the shared storage. -/
def readCow {α : Type} (store : List α) : Cow α → Option α
  | .owned a => some a
  | .borrowed r => store[r]?

/-- The `DataFrame` of `frame/mod.rs` with its copy-on-write wrappers made
explicit: the row and column Indexers may be shared with other frames through
read-only stores. -/
structure CowFrame (I C V : Type) where
  values : List (List V)
  index : Cow (Indexer I)
  columns : Cow (Indexer C)
  deriving DecidableEq

/-- The shared Indexer storage that `Cow.borrowed` references point into. -/
structure Stores (I C : Type) where
  idx : List (Indexer I)
  cols : List (Indexer C)
  deriving DecidableEq

/-- `DataFrame::insert` (`frame/mod.rs`) over the copy-on-write model: asserts
`self.len() == values.len()` (`self.len()` reads the row Indexer; failing is
the `LengthMismatch` panic) before any mutation, then pushes the column array
onto the receiver's value list and pushes the label onto the column Indexer
via `Cow::to_mut`, which mutates owned data in place and first clones borrowed
data into an owned copy — the shared storage is never written.  Returns the
post-call storage and frame; `none` only for a dangling reference, which a
live Rust borrow cannot be. -/
def insertCow {I C V : Type} (st : Stores I C) (f : CowFrame I C V)
    (arr : List V) (name : C) :
    Option (Stores I C × CowFrame I C V × Option Err) :=
  match readCow st.idx f.index with
  | none => none
  | some index =>
    if index.values.length = arr.length then
      match readCow st.cols f.columns with
      | none => none
      | some cols =>
        some (st, ⟨f.values ++ [arr], f.index, .owned ⟨cols.values ++ [name]⟩⟩,
          none)
    else some (st, f, some .LengthMismatch)

/-- C8: for a matching-length column array, `insert` appends it as the last
column and pushes the label onto the receiver's column Indexer only: the row
Indexer handle is unchanged, the shared storage is unchanged, so any other
frame sharing the column-Indexer storage reads exactly what it read before;
with a mismatched length, `insert` fails with `LengthMismatch`. -/
theorem C8_insert_cow_spec {I C V : Type} (st : Stores I C) (f : CowFrame I C V)
    (arr : List V) (name : C) (index : Indexer I) (cols : Indexer C)
    (hidx : readCow st.idx f.index = some index)
    (hcols : readCow st.cols f.columns = some cols) :
    (index.values.length = arr.length →
      ∃ st2 f2, insertCow st f arr name = some (st2, f2, none) ∧
        st2 = st ∧
        f2.values = f.values ++ [arr] ∧
        f2.index = f.index ∧
        f2.columns = .owned ⟨cols.values ++ [name]⟩ ∧
        ∀ other : Cow (Indexer C), readCow st2.cols other = readCow st.cols other) ∧
    (index.values.length ≠ arr.length →
      insertCow st f arr name = some (st, f, some .LengthMismatch)) := by
  constructor
  · intro hlen
    refine ⟨st, ⟨f.values ++ [arr], f.index, .owned ⟨cols.values ++ [name]⟩⟩,
      ?_, rfl, rfl, rfl, rfl, fun _ => rfl⟩
    unfold insertCow
    rw [hidx]
    dsimp only
    rw [if_pos hlen, hcols]
  · intro hlen
    unfold insertCow
    rw [hidx]
    dsimp only
    rw [if_neg hlen]

/-- C8 witness: inserting a length-2 column into a 2-row frame whose column
Indexer is a borrowed view into shared storage. -/
theorem C8_witness :
    ((Indexer.mk [5, 6] : Indexer Nat).values.length = [9, 9].length →
      ∃ st2 f2,
        insertCow (Stores.mk [⟨[5, 6]⟩] [⟨[7]⟩])
          (CowFrame.mk [[1, 2]] (.borrowed 0) (.borrowed 0) :
            CowFrame Nat Nat Nat) [9, 9] 8 = some (st2, f2, none) ∧
        st2 = Stores.mk [⟨[5, 6]⟩] [⟨[7]⟩] ∧
        f2.values = [[1, 2]] ++ [[9, 9]] ∧
        f2.index = .borrowed 0 ∧
        f2.columns = .owned ⟨[7].append [8]⟩ ∧
        ∀ other : Cow (Indexer Nat),
          readCow st2.cols other =
            readCow (Stores.mk [(⟨[5, 6]⟩ : Indexer Nat)]
              [(⟨[7]⟩ : Indexer Nat)]).cols other) ∧
    ((Indexer.mk [5, 6] : Indexer Nat).values.length ≠ [9, 9].length →
      insertCow (Stores.mk [⟨[5, 6]⟩] [⟨[7]⟩])
        (CowFrame.mk [[1, 2]] (.borrowed 0) (.borrowed 0) :
          CowFrame Nat Nat Nat) [9, 9] 8 =
        some (Stores.mk [⟨[5, 6]⟩] [⟨[7]⟩],
          CowFrame.mk [[1, 2]] (.borrowed 0) (.borrowed 0),
          some .LengthMismatch)) :=
  C8_insert_cow_spec _ _ _ _ _ _ rfl rfl

/-- C9: `append`, `concat` and `insert` check their precondition before any
mutation: with differing columns `append` reports `ColumnsDiffer`, with
differing row Indexers `concat` reports `IndexDiffer`, and with a mismatched
array length `insert` reports `LengthMismatch` while returning the shared
storage and the receiver exactly as they were — `append` and `concat` take
their operands by shared reference and build a fresh result, so their operands
are unchanged by construction, and the failed `insert` leaves its receiver's
state equal to the input state. -/
theorem C9_failure_atomicity {I C V : Type} [DecidableEq I] [DecidableEq C]
    (f g f2 g2 : DataFrame I C V) (st : Stores I C) (cf : CowFrame I C V)
    (arr : List V) (name : C) (index : Indexer I)
    (hcols : f.columns ≠ g.columns)
    (hidx : f2.index ≠ g2.index)
    (hread : readCow st.idx cf.index = some index)
    (hlen : index.values.length ≠ arr.length) :
    f.append g = .error .ColumnsDiffer ∧
    f2.concat g2 = .error .IndexDiffer ∧
    insertCow st cf arr name = some (st, cf, some .LengthMismatch) := by
  refine ⟨?_, ?_, ?_⟩
  · unfold DataFrame.append
    rw [if_neg hcols]
  · unfold DataFrame.concat
    rw [if_neg hidx]
  · unfold insertCow
    rw [hread]
    dsimp only
    rw [if_neg hlen]

/-- C9 witness: concrete failing `append`, `concat` and `insert` calls. -/
theorem C9_witness :
    (DataFrame.mk [[1]] ⟨[0]⟩ ⟨[7]⟩ : DataFrame Nat Nat Nat).append
        (DataFrame.mk [[2]] ⟨[0]⟩ ⟨[8]⟩) = .error .ColumnsDiffer ∧
    (DataFrame.mk [[1]] ⟨[0]⟩ ⟨[7]⟩ : DataFrame Nat Nat Nat).concat
        (DataFrame.mk [[2]] ⟨[1]⟩ ⟨[8]⟩) = .error .IndexDiffer ∧
    insertCow (Stores.mk [⟨[5, 6]⟩] [⟨[7]⟩])
        (CowFrame.mk [[1, 2]] (.borrowed 0) (.borrowed 0) :
          CowFrame Nat Nat Nat) [9] 8 =
      some (Stores.mk [⟨[5, 6]⟩] [⟨[7]⟩],
        CowFrame.mk [[1, 2]] (.borrowed 0) (.borrowed 0),
        some .LengthMismatch) :=
  C9_failure_atomicity _ _ _ _ _ _ _ _ _
    (by decide) (by decide) rfl (by decide)

/-- The `Series` of `series.rs`: a value vector and a row Indexer.
`Series::new` rejects unequal lengths, so every constructed series has equally
long values and index. -/
structure Series (T U : Type) where
  values : List T
  index : Indexer U
  deriving DecidableEq

/-- The `Series` length invariant established by `Series::new`. -/
def Series.wf {T U : Type} (s : Series T U) : Prop :=
  s.values.length = s.index.values.length

instance {T U : Type} (s : Series T U) : Decidable s.wf := by
  unfold Series.wf
  infer_instance

/-- `Series::new` (`series.rs`): panics with a length mismatch unless the
value vector and index sequence have equal lengths. -/
def Series.new {T U : Type} (values : List T) (index : List U) :
    Except Err (Series T U) :=
  if values.length = index.length then .ok ⟨values, ⟨index⟩⟩
  else .error .LengthMismatch

/-- The element-wise operator instances of `series/ops.rs`: the
`define_numric_op` macro gives `+ - * / %` the one body embedded here, so the
embedding is parametric in the operator.  It panics unless the two Indexers
hold equal label sequences (modelled as the `IndexDiffer` failure;
`Indexer.equals` compares the label sequences, spec §4.1), then zips the two
value vectors under the operator and rebuilds via `Series::new` with a copy of
the left operand's index values. -/
def Series.elemwise {T U : Type} [DecidableEq U] (op : T → T → T)
    (s r : Series T U) : Except Err (Series T U) :=
  if s.index.values = r.index.values then
    Series.new (List.zipWith op s.values r.values) s.index.values
  else .error .IndexDiffer

/-- C10: each element-wise arithmetic operator on two Series panics when the
two index label sequences differ, and otherwise returns a Series carrying the
left operand's index label sequence whose value at every position is the
operator applied to the operands' values at that position (stated for an
arbitrary binary operator: all five macro-generated instances share this
body). -/
theorem C10_elemwise_spec {T U : Type} [DecidableEq U] (op : T → T → T)
    (s r : Series T U) (hws : s.wf) (hwr : r.wf) :
    (s.index.values = r.index.values →
      ∃ R, Series.elemwise op s r = .ok R ∧
        R.index.values = s.index.values ∧
        R.values.length = s.values.length ∧
        ∀ (i : Nat) (x : T) (y : T),
          s.values[i]? = some x → r.values[i]? = some y →
          R.values[i]? = some (op x y)) ∧
    (s.index.values ≠ r.index.values →
      Series.elemwise op s r = .error .IndexDiffer) := by
  constructor
  · intro hidx
    have hlen : s.values.length = r.values.length := by
      rw [hws, hwr, hidx]
    have hzlen : (List.zipWith op s.values r.values).length = s.values.length := by
      simp [List.length_zipWith, hlen]
    refine ⟨⟨List.zipWith op s.values r.values, ⟨s.index.values⟩⟩, ?_, rfl,
      hzlen, ?_⟩
    · unfold Series.elemwise Series.new
      rw [if_pos hidx, if_pos (by rw [hzlen, hws])]
    · intro i x y hx hy
      exact zipWith_get_some hx hy
  · intro hidx
    unfold Series.elemwise
    rw [if_neg hidx]

/-- C10 witness: two concrete integer series over equal index label
sequences, combined under addition. -/
theorem C10_witness :
    (((Indexer.mk [10, 20, 30] : Indexer Nat).values =
        (Indexer.mk [10, 20, 30] : Indexer Nat).values) →
      ∃ R, Series.elemwise (fun x y => x + y)
          (Series.mk [1, 2, 3] ⟨[10, 20, 30]⟩ : Series Int Nat)
          (Series.mk [1, 3, 2] ⟨[10, 20, 30]⟩) = .ok R ∧
        R.index.values = [10, 20, 30] ∧
        R.values.length = [1, 2, 3].length ∧
        ∀ (i : Nat) (x : Int) (y : Int),
          ([1, 2, 3] : List Int)[i]? = some x →
          ([1, 3, 2] : List Int)[i]? = some y →
          R.values[i]? = some (x + y)) ∧
    ((Indexer.mk [10, 20, 30] : Indexer Nat).values ≠
        (Indexer.mk [10, 20, 30] : Indexer Nat).values →
      Series.elemwise (fun x y => x + y)
        (Series.mk [1, 2, 3] ⟨[10, 20, 30]⟩ : Series Int Nat)
        (Series.mk [1, 3, 2] ⟨[10, 20, 30]⟩) = .error .IndexDiffer) :=
  C10_elemwise_spec (fun x y => x + y)
    (Series.mk [1, 2, 3] ⟨[10, 20, 30]⟩ : Series Int Nat)
    (Series.mk [1, 3, 2] ⟨[10, 20, 30]⟩) (by decide) (by decide)

end Brassfibre
